import Mathlib

/-!
Verification of the core algorithms of the `ai-pr-reviewer` repository:
the diff decomposer (`splitPatch`, `patchStartEndLine`, `parsePatch`),
the token-budget packer (`packPatchesIntoInputs`), the comment-to-patch
mapper (`findBestPatchMapping`, `mapReviewToPatch`), the resumable review
state machine (`createReviewState`, `updateFileStatus`, `updatePhase`,
`recordError`, `deserializeState`, `isSameReview`) and the retry policy
(`getRetryStrategy`, `shouldRetry`).

Strings are handled at the granularity the source handles them: the
splitting and rendering functions of `review.ts` operate on a string that
they immediately cut at line boundaries (the `^...$` multiline regexes
match whole lines, and `split('\n')` produces lines), so a diff is
embedded as its list of lines `List String`, a "substring" of the diff is
a contiguous block of lines, and concatenation of substrings is list
append.  JavaScript numbers that only ever hold integers are embedded as
`Int` (or `Nat` where the source value is a count), with `Math.max 0` kept
explicit.
-/

namespace AiPrReviewer

/-! ## Hunk header parsing

`review.ts` recognises hunk headers with the regular expression
`/(^@@ -(\d+),(\d+) \+(\d+),(\d+) @@).*$/gm` (in `splitPatch`) and
`/(^@@ -(\d+),(\d+) \+(\d+),(\d+) @@)/gm` (in `patchStartEndLine`).
Both accept exactly the lines that start with
`@@ -<digits>,<digits> +<digits>,<digits> @@`; the four digit groups are
read with `parseInt`. -/

/-- Greedily take the leading `[0-9]` characters, as `\d+` does. -/
def takeDigits : List Char → List Char × List Char
  | [] => ([], [])
  | c :: cs =>
    if c.isDigit then
      let (d, r) := takeDigits cs
      (c :: d, r)
    else
      ([], c :: cs)

/-- Decimal value of a digit string, as `parseInt` reads a `\d+` group. -/
def digitsToNat (ds : List Char) : Nat :=
  ds.foldl (fun n c => n * 10 + (c.toNat - 48)) 0

/-- Character-level match of the hunk-header pattern
`^@@ -(\d+),(\d+) \+(\d+),(\d+) @@` against the start of a line, returning
the four captured numbers `(oldBegin, oldDiff, newBegin, newDiff)`.
Anything may follow the closing `@@`. -/
def parseHunkHeaderChars : List Char → Option (Nat × Nat × Nat × Nat)
  | '@' :: '@' :: ' ' :: '-' :: r0 =>
    match takeDigits r0 with
    | ([], _) => none
    | (d1, r1) =>
      match r1 with
      | ',' :: r2 =>
        match takeDigits r2 with
        | ([], _) => none
        | (d2, r3) =>
          match r3 with
          | ' ' :: '+' :: r4 =>
            match takeDigits r4 with
            | ([], _) => none
            | (d3, r5) =>
              match r5 with
              | ',' :: r6 =>
                match takeDigits r6 with
                | ([], _) => none
                | (d4, r7) =>
                  match r7 with
                  | ' ' :: '@' :: '@' :: _ =>
                    some (digitsToNat d1, digitsToNat d2,
                          digitsToNat d3, digitsToNat d4)
                  | _ => none
              | _ => none
          | _ => none
      | _ => none
  | _ => none

/-- Lifting of `parseHunkHeaderChars` to a line. -/
def parseHunkHeader (s : String) : Option (Nat × Nat × Nat × Nat) :=
  parseHunkHeaderChars s.data

/-- Whether a line matches the hunk-header pattern of `splitPatch`. -/
def isHunkHeaderLine (s : String) : Bool :=
  (parseHunkHeader s).isSome

/-! ## `splitPatch` (review.ts:1007-1029)

The source loop keeps `last`, the index of the most recent header match
(`-1` before the first header), pushes the text from `last` up to each
later match, and finally pushes the text from `last` to the end.  Matches
always sit at the start of a line, so in the line embedding the loop state
is "no chunk open yet" (`none`) or "the lines of the open chunk so far"
(`some cur`, kept reversed), with finished chunks accumulated in `acc`
(also reversed). -/

/-- The scanning loop of `splitPatch`. -/
def splitPatchLoop : List String → Option (List String) →
    List (List String) → List (List String)
  | [], none, acc => acc.reverse
  | [], some cur, acc => (cur.reverse :: acc).reverse
  | l :: ls, none, acc =>
    if isHunkHeaderLine l then splitPatchLoop ls (some [l]) acc
    else splitPatchLoop ls none acc
  | l :: ls, some cur, acc =>
    if isHunkHeaderLine l then splitPatchLoop ls (some [l]) (cur.reverse :: acc)
    else splitPatchLoop ls (some (l :: cur)) acc

/-- Function `splitPatch` of review.ts on the line embedding of the diff.  The
`patch == null` guard of the source returns `[]` for an absent diff; an
absent diff has no lines, and the embedding likewise returns `[]` on
`[]`. -/
def splitPatch (lines : List String) : List (List String) :=
  splitPatchLoop lines none []

theorem splitPatchLoop_some_join (ls : List String) :
    ∀ (cur : List String) (acc : List (List String)),
      (splitPatchLoop ls (some cur) acc).flatten =
        acc.reverse.flatten ++ cur.reverse ++ ls := by
  induction ls with
  | nil =>
    intro cur acc
    simp [splitPatchLoop]
  | cons l ls ih =>
    intro cur acc
    by_cases h : isHunkHeaderLine l
    · simp [splitPatchLoop, h, ih]
    · simp [splitPatchLoop, h, ih]

theorem splitPatchLoop_some_length (ls : List String) :
    ∀ (cur : List String) (acc : List (List String)),
      (splitPatchLoop ls (some cur) acc).length =
        acc.length + 1 + (ls.filter isHunkHeaderLine).length := by
  induction ls with
  | nil =>
    intro cur acc
    simp [splitPatchLoop]
  | cons l ls ih =>
    intro cur acc
    by_cases h : isHunkHeaderLine l
    · simp [splitPatchLoop, h, ih]
      omega
    · simp [splitPatchLoop, h, ih]

theorem splitPatchLoop_none_join (ls : List String) :
    (splitPatchLoop ls none []).flatten =
      ls.dropWhile (fun l => !isHunkHeaderLine l) := by
  induction ls with
  | nil => simp [splitPatchLoop]
  | cons l ls ih =>
    by_cases h : isHunkHeaderLine l
    · simp [splitPatchLoop, h, List.dropWhile, splitPatchLoop_some_join]
    · simp [splitPatchLoop, h, List.dropWhile, ih]

theorem splitPatchLoop_none_length (ls : List String) :
    (splitPatchLoop ls none []).length =
      (ls.filter isHunkHeaderLine).length := by
  induction ls with
  | nil => simp [splitPatchLoop]
  | cons l ls ih =>
    by_cases h : isHunkHeaderLine l
    · simp [splitPatchLoop, h, splitPatchLoop_some_length]
      omega
    · simp [splitPatchLoop, h, ih]

/-- C1: as stated the claim is false — text preceding the first hunk header
is dropped, so the concatenation of the returned substrings does not
reconstruct the input.  At the concrete diff whose lines are
`["x", "@@ -1,1 +1,1 @@"]` there is exactly one header line and
`splitPatch` returns exactly one substring, but the concatenation of the
returned substrings is `["@@ -1,1 +1,1 @@"]`, not the input. -/
theorem splitPatch_counterexample_concat :
    (["x", "@@ -1,1 +1,1 @@"].filter isHunkHeaderLine).length = 1 ∧
      splitPatch ["x", "@@ -1,1 +1,1 @@"] = [["@@ -1,1 +1,1 @@"]] ∧
      (splitPatch ["x", "@@ -1,1 +1,1 @@"]).flatten ≠
        ["x", "@@ -1,1 +1,1 @@"] := by
  refine ⟨by decide, by decide, ?_⟩
  decide

/-- C1 (amended): for every input diff, `splitPatch` returns exactly as
many substrings as there are lines matching the hunk-header pattern, the
concatenation of the returned substrings equals the input with the lines
preceding the first header removed (hence equals the input whenever the
input starts at a header), and an input with zero matching headers yields
the empty list. -/
theorem splitPatch_spec (lines : List String) :
    (splitPatch lines).length = (lines.filter isHunkHeaderLine).length ∧
      (splitPatch lines).flatten =
        lines.dropWhile (fun l => !isHunkHeaderLine l) ∧
      (lines.filter isHunkHeaderLine = [] → splitPatch lines = []) := by
  refine ⟨splitPatchLoop_none_length lines, splitPatchLoop_none_join lines, ?_⟩
  intro h
  have hlen := splitPatchLoop_none_length lines
  rw [h] at hlen
  exact List.length_eq_zero.mp hlen

/-- C1 witness: `splitPatch_spec` applied at a concrete headerless input,
discharging the zero-header hypothesis. -/
theorem splitPatch_spec_witness : splitPatch ["x"] = [] :=
  (splitPatch_spec ["x"]).2.2 (by decide)

/-! ## `patchStartEndLine` (review.ts:1031-1057) and
`parsePatch` (review.ts:1059-1113) -/

/-- Old/new line range of a hunk, `end = start + length - 1`. -/
structure LineRange where
  startLine : Int
  endLine : Int
deriving Repr, DecidableEq

/-- Result shape of `patchStartEndLine`. -/
structure PatchBounds where
  oldHunk : LineRange
  newHunk : LineRange
deriving Repr, DecidableEq

/-- Function `patchStartEndLine` of review.ts: find the first line matching the
hunk-header pattern and convert `(begin, diff)` to
`(startLine, endLine = begin + diff - 1)` for the old and new sides. -/
def patchStartEndLine (lines : List String) : Option PatchBounds :=
  match lines.findSome? parseHunkHeader with
  | some (oldBegin, oldDiff, newBegin, newDiff) =>
    some ⟨⟨(oldBegin : Int), (oldBegin : Int) + (oldDiff : Int) - 1⟩,
          ⟨(newBegin : Int), (newBegin : Int) + (newDiff : Int) - 1⟩⟩
  | none => none

/-- Result shape of `parsePatch`: the two rendered text blocks, kept as
line lists (the source joins them with `'\n'` at the very end). -/
structure RenderedHunks where
  oldHunk : List String
  newHunk : List String
deriving Repr, DecidableEq

/-- Test `line.startsWith(c)` for a single-character prefix `c`: the line's
first character is `c`.  (Defined at character level because the body
prefixes tested by `parsePatch` are the single characters `-` and `+`.) -/
def startsWithChar (c : Char) (s : String) : Bool :=
  match s.data with
  | [] => false
  | a :: _ => a == c

/-- Operation `line.substring(1)`: the line without its first character. -/
def dropFirst (s : String) : String :=
  ⟨s.data.drop 1⟩

/-- The `if (lines[lines.length - 1] === '') lines.pop()` step of
`parsePatch`. -/
def popTrailingEmpty (ls : List String) : List String :=
  match ls.getLast? with
  | some "" => ls.dropLast
  | _ => ls

/-- The rendering loop of `parsePatch`.  `total` is `lines.length` of the
source (the body length after the pop), the `Int` argument is the running
`newLine` counter, and the `Nat` argument is the value of `currentLine`
before the iteration (the source increments it at the top of the loop).
JavaScript's `lines.length - skipEnd` can be negative for short bodies,
in which case `currentLine <= lines.length - skipEnd` is false; truncated
`Nat` subtraction gives the same comparison outcome since
`currentLine ≥ 1`. -/
def parsePatchLoop (removalOnly : Bool) (total : Nat) :
    List String → Int → Nat → List String × List String
  | [], _, _ => ([], [])
  | l :: ls, newLine, prev =>
    let currentLine := prev + 1
    if startsWithChar '-' l then
      let r := parsePatchLoop removalOnly total ls newLine currentLine
      (dropFirst l :: r.1, r.2)
    else if startsWithChar '+' l then
      let r := parsePatchLoop removalOnly total ls (newLine + 1) currentLine
      (r.1, (toString newLine ++ ": " ++ dropFirst l) :: r.2)
    else
      let r := parsePatchLoop removalOnly total ls (newLine + 1) currentLine
      (l :: r.1,
        (if removalOnly ||
            (decide (3 < currentLine) && decide (currentLine ≤ total - 3)) then
          toString newLine ++ ": " ++ l
        else l) :: r.2)

/-- Function `parsePatch` of review.ts: parse the header bounds, drop the first
line (the header), pop a trailing empty line, and render the body. -/
def parsePatch (hunkLines : List String) : Option RenderedHunks :=
  match patchStartEndLine hunkLines with
  | none => none
  | some bounds =>
    let lines := popTrailingEmpty (hunkLines.drop 1)
    let removalOnly := !(lines.any (fun l => startsWithChar '+' l))
    let r := parsePatchLoop removalOnly lines.length lines
      bounds.newHunk.startLine 0
    some ⟨r.1, r.2⟩

/-- Spec-side rendering of the old text, transcribed from the claim:
`-` lines appear unnumbered (content only), `+` lines do not appear,
context lines appear as-is. -/
def oldTextSpec (body : List String) : List String :=
  body.filterMap (fun l =>
    if startsWithChar '-' l then some (dropFirst l)
    else if startsWithChar '+' l then none
    else some l)

/-- Rendering of one added-or-context line as the claim describes it:
`j` is the number of added/context lines that precede it (so it carries
the number `newStart + j`), `p.1` is its 1-based position in the hunk
body and `p.2` the raw line.  `+` lines are always numbered; a context
line is numbered iff the hunk is removal-only (`ro`) or its position lies
outside both the first-3 and last-3 positions of the body. -/
def newEntry (ro : Bool) (total : Nat) (newStart : Int) (j : Nat)
    (p : Nat × String) : String :=
  let numbered := toString (newStart + (j : Int)) ++ ": "
  if startsWithChar '+' p.2 then numbered ++ dropFirst p.2
  else if ro || (decide (3 < p.1) && decide (p.1 ≤ total - 3)) then
    numbered ++ p.2
  else p.2

/-- Spec-side rendering of the new text, transcribed from the claim:
pair every body line with its 1-based position, filter the `-` lines out,
and render the `j`-th remaining (added or context) line with the number
`newStart + j` per `newEntry` — the counter starts at `newStart` and
increases by exactly 1 per added or context line. -/
def newTextSpec (newStart : Int) (body : List String) : List String :=
  ((List.enumFrom 1 body).filter (fun p => !startsWithChar '-' p.2)).mapIdx
    (newEntry (!(body.any (fun l => startsWithChar '+' l))) body.length newStart)

theorem parsePatchLoop_fst (removalOnly : Bool) (total : Nat)
    (ls : List String) : ∀ (newLine : Int) (prev : Nat),
    (parsePatchLoop removalOnly total ls newLine prev).1 = oldTextSpec ls := by
  induction ls with
  | nil => intro newLine prev; simp [parsePatchLoop, oldTextSpec]
  | cons l ls ih =>
    intro newLine prev
    simp only [oldTextSpec] at ih ⊢
    rw [List.filterMap_cons]
    by_cases h1 : startsWithChar '-' l
    · simp [parsePatchLoop, h1, ih newLine (prev + 1)]
    · by_cases h2 : startsWithChar '+' l
      · simp [parsePatchLoop, h1, h2, ih (newLine + 1) (prev + 1)]
      · simp [parsePatchLoop, h1, h2, ih (newLine + 1) (prev + 1)]

theorem newEntry_succ (ro : Bool) (total : Nat) (newLine : Int) :
    (fun (j : Nat) (p : Nat × String) => newEntry ro total newLine (j + 1) p)
      = newEntry ro total (newLine + 1) := by
  funext j p
  have h : newLine + ((j : Int) + 1) = newLine + 1 + (j : Int) := by ring
  simp [newEntry, h]

theorem parsePatchLoop_snd (ro : Bool) (total : Nat) (ls : List String) :
    ∀ (newLine : Int) (prev : Nat),
    (parsePatchLoop ro total ls newLine prev).2 =
      ((List.enumFrom (prev + 1) ls).filter
        (fun p => !startsWithChar '-' p.2)).mapIdx (newEntry ro total newLine) := by
  induction ls with
  | nil => intro newLine prev; simp [parsePatchLoop]
  | cons l ls ih =>
    intro newLine prev
    rw [List.enumFrom_cons, List.filter_cons]
    by_cases h1 : startsWithChar '-' l
    · simp only [h1, Bool.not_true, if_neg]
      simp [parsePatchLoop, h1, ih newLine (prev + 1)]
    · rw [if_pos (by simp [h1])]
      rw [List.mapIdx_cons, newEntry_succ, ← ih (newLine + 1) (prev + 1)]
      by_cases h2 : startsWithChar '+' l
      · simp [parsePatchLoop, h1, h2, newEntry]
      · simp [parsePatchLoop, h1, h2, newEntry]

/-- C5: for every hunk accepted by the decomposer (its header parses to
`bounds`), the rendered old text lists `-` lines unnumbered and context
lines as-is (`+` lines absent), and the rendered new text is exactly the
claim's rendering: `-` lines absent, the `j`-th added-or-context line
numbered `newStart + j` (counter starts at `newStart` and increases by
exactly 1 per added or context line), `+` lines always numbered, and a
context line numbered iff the hunk is removal-only or its 1-based body
position lies outside both the first-3 and last-3 positions. -/
theorem parsePatch_spec (hunkLines : List String) (bounds : PatchBounds)
    (h : patchStartEndLine hunkLines = some bounds) :
    parsePatch hunkLines =
      some ⟨oldTextSpec (popTrailingEmpty (hunkLines.drop 1)),
            newTextSpec bounds.newHunk.startLine
              (popTrailingEmpty (hunkLines.drop 1))⟩ := by
  unfold parsePatch
  rw [h]
  simp [parsePatchLoop_fst, parsePatchLoop_snd, newTextSpec]

/-- C5 witness: `parsePatch_spec` applied to a concrete hunk with one
addition, evaluated: the `+` line is numbered 2, edge context lines stay
unnumbered. -/
theorem parsePatch_spec_witness :
    parsePatch ["@@ -1,3 +1,4 @@", " a", "+b", " c", " d"] =
      some ⟨[" a", " c", " d"], [" a", "2: b", " c", " d"]⟩ :=
  (parsePatch_spec ["@@ -1,3 +1,4 @@", " a", "+b", " c", " d"]
    ⟨⟨1, 3⟩, ⟨1, 4⟩⟩ (by decide)).trans (by decide)

/-! ## `findBestPatchMapping` (review.ts:1137-1169) and
`mapReviewToPatch` (review.ts:1171-1190)

The mapper receives the candidate `(startLine, endLine)` extracted from
the LLM response and the file's hunk new-ranges (the `[startLine,
endLine]` prefixes of the packed patches). -/

/-- A structured review record: `{startLine, endLine, comment}`. -/
structure Review where
  startLine : Int
  endLine : Int
  comment : String
deriving Repr, DecidableEq

/-- The loop of `findBestPatchMapping`, carrying `withinPatch`,
`bestPatchStartLine`, `bestPatchEndLine` and `maxIntersection`.  The
source updates all four when `intersectionLength > maxIntersection`
(recomputing `withinPatch` there) and then breaks when `withinPatch` is
true. -/
def findBestPatchMappingLoop (reviewStartLine reviewEndLine : Int) :
    List (Int × Int) → Bool → Int → Int → Int → Bool × Int × Int
  | [], w, bs, be, _ => (w, bs, be)
  | (s, e) :: rest, w, bs, be, mi =>
    let intersectionStart := max reviewStartLine s
    let intersectionEnd := min reviewEndLine e
    let intersectionLength := max 0 (intersectionEnd - intersectionStart + 1)
    let upd : Bool × Int × Int × Int :=
      if intersectionLength > mi then
        (intersectionLength == reviewEndLine - reviewStartLine + 1, s, e,
          intersectionLength)
      else (w, bs, be, mi)
    if upd.1 then (upd.1, upd.2.1, upd.2.2.1)
    else findBestPatchMappingLoop reviewStartLine reviewEndLine rest
      upd.1 upd.2.1 upd.2.2.1 upd.2.2.2

/-- Function `findBestPatchMapping` of review.ts:
`withinPatch = false, bestPatchStartLine = bestPatchEndLine = -1,
maxIntersection = 0` initially. -/
def findBestPatchMapping (patches : List (Int × Int))
    (reviewStartLine reviewEndLine : Int) : Bool × Int × Int :=
  findBestPatchMappingLoop reviewStartLine reviewEndLine patches
    false (-1) (-1) 0

/-- The note prepended when the review is remapped to the hunk with the
greatest overlap. -/
def overlapNote (r : Review) : String :=
  "> Note: This review was outside of the patch, so it was mapped to the patch with the greatest overlap. Original lines ["
    ++ toString r.startLine ++ "-" ++ toString r.endLine ++ "]\n\n"
    ++ r.comment

/-- The note prepended when no hunk overlaps the review at all. -/
def noOverlapNote (r : Review) : String :=
  "> Note: This review was outside of the patch, but no patch was found that overlapped with it. Original lines ["
    ++ toString r.startLine ++ "-" ++ toString r.endLine ++ "]\n\n"
    ++ r.comment

/-- Function `mapReviewToPatch` of review.ts (the source mutates `review` in
place; the embedding returns the resulting record).  `patches[0]` on an
empty list throws in JavaScript, embedded as `none`. -/
def mapReviewToPatch (patches : List (Int × Int)) (review : Review) :
    Option Review :=
  let r := findBestPatchMapping patches review.startLine review.endLine
  if r.1 then some review
  else if r.2.1 != -1 && r.2.2 != -1 then
    some ⟨r.2.1, r.2.2, overlapNote review⟩
  else
    match patches with
    | [] => none
    | (s, e) :: _ => some ⟨s, e, noOverlapNote review⟩

/-- Value `intersectionLength` of one hunk against the candidate range, as the
claim describes it: `max(0, min(endLine, hunkEnd) - max(startLine,
hunkStart) + 1)`. -/
def interLen (reviewStartLine reviewEndLine : Int) (p : Int × Int) : Int :=
  max 0 (min reviewEndLine p.2 - max reviewStartLine p.1 + 1)

/-- The maximal intersection over all hunks. -/
def maxInter (reviewStartLine reviewEndLine : Int)
    (patches : List (Int × Int)) : Int :=
  patches.foldr (fun p m => max (interLen reviewStartLine reviewEndLine p) m) 0

theorem interLen_nonneg (rs re : Int) (p : Int × Int) :
    0 ≤ interLen rs re p := by
  simp [interLen]

theorem interLen_le (rs re : Int) (h : rs ≤ re) (p : Int × Int) :
    interLen rs re p ≤ re - rs + 1 := by
  simp only [interLen]
  omega

theorem maxInter_nonneg (rs re : Int) (patches : List (Int × Int)) :
    0 ≤ maxInter rs re patches := by
  induction patches with
  | nil => simp [maxInter]
  | cons p ps ih =>
    simp only [maxInter, List.foldr_cons] at ih ⊢
    exact le_max_of_le_right ih

theorem interLen_le_maxInter (rs re : Int) (patches : List (Int × Int))
    (p : Int × Int) (hp : p ∈ patches) :
    interLen rs re p ≤ maxInter rs re patches := by
  induction patches with
  | nil => cases hp
  | cons q qs ih =>
    simp only [maxInter, List.foldr_cons]
    rcases List.mem_cons.mp hp with h | h
    · subst h; exact le_max_left _ _
    · exact le_max_of_le_right (ih h)

theorem findBestLoop_no_update (rs re : Int) (ls : List (Int × Int)) :
    ∀ (bs be mi : Int), (∀ p ∈ ls, interLen rs re p ≤ mi) →
      findBestPatchMappingLoop rs re ls false bs be mi = (false, bs, be) := by
  induction ls with
  | nil => intro bs be mi _; simp [findBestPatchMappingLoop]
  | cons p rest ih =>
    intro bs be mi h
    obtain ⟨s, e⟩ := p
    have hhead : interLen rs re (s, e) ≤ mi := h (s, e) (List.mem_cons_self _ _)
    simp only [interLen] at hhead
    simp only [findBestPatchMappingLoop, gt_iff_lt, not_lt.mpr hhead, if_false]
    exact ih bs be mi (fun q hq => h q (List.mem_cons_of_mem _ hq))

theorem findBestLoop_full (rs re : Int) (ls : List (Int × Int)) :
    ∀ (bs be mi : Int), 0 ≤ mi → mi < re - rs + 1 →
      (∃ p ∈ ls, interLen rs re p = re - rs + 1) →
      (findBestPatchMappingLoop rs re ls false bs be mi).1 = true := by
  induction ls with
  | nil =>
    intro bs be mi _ _ hex
    simp at hex
  | cons p rest ih =>
    intro bs be mi hmi0 hmiL hex
    obtain ⟨s, e⟩ := p
    have hrsre : rs ≤ re := by omega
    have hil0 : 0 ≤ interLen rs re (s, e) := interLen_nonneg rs re (s, e)
    have hilL : interLen rs re (s, e) ≤ re - rs + 1 :=
      interLen_le rs re hrsre (s, e)
    by_cases hgt : interLen rs re (s, e) > mi
    · by_cases heq : interLen rs re (s, e) = re - rs + 1
      · have hgt' : max 0 (min re e - max rs s + 1) > mi := by
          simpa [interLen] using hgt
        have heq' :
            (max 0 (min re e - max rs s + 1) ==
              re - rs + 1) = true := by
          simp only [interLen] at heq
          simp [heq]
        simp [findBestPatchMappingLoop, hgt', heq']
      · have hgt' : max 0 (min re e - max rs s + 1) > mi := by
          simpa [interLen] using hgt
        have heq' :
            (max 0 (min re e - max rs s + 1) ==
              re - rs + 1) = false := by
          simp only [interLen] at heq
          simp [heq]
        have hex' : ∃ p ∈ rest, interLen rs re p = re - rs + 1 := by
          rcases hex with ⟨q, hq, hqL⟩
          rcases List.mem_cons.mp hq with rfl | hq'
          · exact absurd hqL heq
          · exact ⟨q, hq', hqL⟩
        simp only [findBestPatchMappingLoop, gt_iff_lt, hgt', if_true, heq']
        simp only [Bool.false_eq_true, if_false]
        exact ih s e _ hil0 (lt_of_le_of_ne hilL heq) hex'
    · have hgt' : ¬(max 0 (min re e - max rs s + 1) > mi) := by
        simpa [interLen] using hgt
      have hex' : ∃ p ∈ rest, interLen rs re p = re - rs + 1 := by
        rcases hex with ⟨q, hq, hqL⟩
        rcases List.mem_cons.mp hq with rfl | hq'
        · exfalso
          rw [hqL] at hgt
          omega
        · exact ⟨q, hq', hqL⟩
      simp only [findBestPatchMappingLoop, gt_iff_lt, hgt', if_false]
      exact ih bs be mi hmi0 hmiL hex'

theorem findBestLoop_first_argmax (rs re : Int) (ls : List (Int × Int)) :
    ∀ (bs be mi : Int), 0 ≤ mi → mi < maxInter rs re ls →
      (∀ p ∈ ls, interLen rs re p ≠ re - rs + 1) →
      ∃ pre x post, ls = pre ++ x :: post ∧
        interLen rs re x = maxInter rs re ls ∧
        (∀ y ∈ pre, interLen rs re y < maxInter rs re ls) ∧
        findBestPatchMappingLoop rs re ls false bs be mi =
          (false, x.1, x.2) := by
  induction ls with
  | nil =>
    intro bs be mi hmi0 hmiM _
    simp [maxInter] at hmiM
    omega
  | cons p rest ih =>
    intro bs be mi hmi0 hmiM hnf
    obtain ⟨s, e⟩ := p
    have hM : maxInter rs re ((s, e) :: rest) =
        max (interLen rs re (s, e)) (maxInter rs re rest) := by
      simp [maxInter]
    have hheadnf : interLen rs re (s, e) ≠ re - rs + 1 :=
      hnf (s, e) (List.mem_cons_self _ _)
    have hrestnf : ∀ q ∈ rest, interLen rs re q ≠ re - rs + 1 :=
      fun q hq => hnf q (List.mem_cons_of_mem _ hq)
    have heq' : (max 0 (min re e - max rs s + 1) == re - rs + 1) = false := by
      simp only [interLen] at hheadnf
      simp [hheadnf]
    by_cases hgt : interLen rs re (s, e) > mi
    · have hgt' : max 0 (min re e - max rs s + 1) > mi := by
        simpa [interLen] using hgt
      by_cases hm : interLen rs re (s, e) = maxInter rs re ((s, e) :: rest)
      · refine ⟨[], (s, e), rest, by simp, hm, by simp, ?_⟩
        simp only [findBestPatchMappingLoop, gt_iff_lt, hgt', if_true, heq']
        simp only [Bool.false_eq_true, if_false]
        refine findBestLoop_no_update rs re rest s e _ (fun q hq => ?_)
        calc interLen rs re q ≤ maxInter rs re rest :=
              interLen_le_maxInter rs re rest q hq
          _ ≤ maxInter rs re ((s, e) :: rest) := by rw [hM]; exact le_max_right _ _
          _ = interLen rs re (s, e) := hm.symm
      · have hlt : interLen rs re (s, e) < maxInter rs re ((s, e) :: rest) := by
          refine lt_of_le_of_ne ?_ hm
          rw [hM]; exact le_max_left _ _
        have hMt : maxInter rs re ((s, e) :: rest) = maxInter rs re rest := by
          rw [hM] at hlt ⊢
          omega
        have hil0 : 0 ≤ interLen rs re (s, e) := interLen_nonneg rs re (s, e)
        obtain ⟨pre', x, post', hsplit, hx, hpre, hloop⟩ :=
          ih s e (interLen rs re (s, e)) hil0 (by rw [← hMt]; exact hlt) hrestnf
        refine ⟨(s, e) :: pre', x, post', by rw [hsplit]; rfl,
          by rw [hMt]; exact hx, ?_, ?_⟩
        · intro y hy
          rcases List.mem_cons.mp hy with rfl | hy'
          · exact hlt
          · rw [hMt]; exact hpre y hy'
        · simp only [findBestPatchMappingLoop, gt_iff_lt, hgt', if_true, heq']
          simp only [Bool.false_eq_true, if_false]
          exact hloop
    · have hgt' : ¬(max 0 (min re e - max rs s + 1) > mi) := by
        simpa [interLen] using hgt
      have hlt : interLen rs re (s, e) < maxInter rs re ((s, e) :: rest) := by
        have := not_lt.mp hgt
        omega
      have hMt : maxInter rs re ((s, e) :: rest) = maxInter rs re rest := by
        rw [hM] at hlt ⊢
        omega
      obtain ⟨pre', x, post', hsplit, hx, hpre, hloop⟩ :=
        ih bs be mi hmi0 (by rw [← hMt]; exact hmiM) hrestnf
      refine ⟨(s, e) :: pre', x, post', by rw [hsplit]; rfl,
        by rw [hMt]; exact hx, ?_, ?_⟩
      · intro y hy
        rcases List.mem_cons.mp hy with rfl | hy'
        · exact hlt
        · rw [hMt]; exact hpre y hy'
      · simp only [findBestPatchMappingLoop, gt_iff_lt, hgt', if_false]
        exact hloop

theorem findBestLoop_zero (rs re : Int) (ls : List (Int × Int))
    (h : maxInter rs re ls = 0) :
    findBestPatchMappingLoop rs re ls false (-1) (-1) 0 =
      (false, -1, -1) :=
  findBestLoop_no_update rs re ls (-1) (-1) 0 (fun p hp =>
    h ▸ interLen_le_maxInter rs re ls p hp)

/-- C4: as stated the claim is false for degenerate candidate ranges.  At
range `(5, 4)` (full length `4 - 5 + 1 = 0`) against the single hunk
`(10, 20)`, the hunk's intersection with the range (`0`) equals the
range's full length, so the claim requires the range to be returned
unchanged with no note; the code instead remaps it to the hunk's bounds
with the "no overlapping patch" note. -/
theorem mapReviewToPatch_counterexample :
    interLen 5 4 (10, 20) = 4 - 5 + 1 ∧
      mapReviewToPatch [((10 : Int), (20 : Int))] ⟨5, 4, "c"⟩ ≠
        some ⟨5, 4, "c"⟩ ∧
      mapReviewToPatch [((10 : Int), (20 : Int))] ⟨5, 4, "c"⟩ =
        some ⟨10, 20, noOverlapNote ⟨5, 4, "c"⟩⟩ := by
  refine ⟨by decide, by decide, by decide⟩

/-- C4 (amended): for every candidate range with `startLine ≤ endLine`
and every non-empty list of hunk new-ranges with nonnegative bounds (as
produced by the header parser), the mapper never fails; if some hunk's
intersection with the range equals the range's full length the range is
returned unchanged with no note added; otherwise, if some hunk
intersects, the range is remapped to the bounds of the first hunk
achieving the maximal intersection, with the overlap note disclosing the
original values; and if no hunk intersects at all the range is remapped
to the first hunk's bounds with the "no overlapping patch" note. -/
theorem mapReviewToPatch_spec (patches : List (Int × Int)) (r : Review)
    (hne : patches ≠ [])
    (hnn : ∀ p ∈ patches, 0 ≤ p.1 ∧ 0 ≤ p.2)
    (hr : r.startLine ≤ r.endLine) :
    (mapReviewToPatch patches r).isSome = true ∧
      ((∃ p ∈ patches, interLen r.startLine r.endLine p =
          r.endLine - r.startLine + 1) →
        mapReviewToPatch patches r = some r) ∧
      ((∀ p ∈ patches, interLen r.startLine r.endLine p ≠
          r.endLine - r.startLine + 1) →
        0 < maxInter r.startLine r.endLine patches →
        ∃ pre x post, patches = pre ++ x :: post ∧
          interLen r.startLine r.endLine x =
            maxInter r.startLine r.endLine patches ∧
          (∀ y ∈ pre, interLen r.startLine r.endLine y <
            maxInter r.startLine r.endLine patches) ∧
          mapReviewToPatch patches r = some ⟨x.1, x.2, overlapNote r⟩) ∧
      (maxInter r.startLine r.endLine patches = 0 →
        mapReviewToPatch patches r =
          some ⟨(patches.head hne).1, (patches.head hne).2,
            noOverlapNote r⟩) := by
  obtain ⟨⟨s0, e0⟩, rest, rfl⟩ : ∃ p rest, patches = p :: rest := by
    cases patches with
    | nil => exact absurd rfl hne
    | cons p rest => exact ⟨p, rest, rfl⟩
  refine ⟨?_, ?_, ?_, ?_⟩
  · unfold mapReviewToPatch
    rcases hfb : findBestPatchMapping ((s0, e0) :: rest) r.startLine
      r.endLine with ⟨w, bs, be⟩
    by_cases hw : w
    · simp [hfb, hw]
    · by_cases hg : (bs != -1 && be != -1)
      · simp [hfb, hw, hg]
      · simp [hfb, hw, hg]
  · intro hex
    have h1 : (findBestPatchMapping ((s0, e0) :: rest) r.startLine
        r.endLine).1 = true :=
      findBestLoop_full r.startLine r.endLine ((s0, e0) :: rest)
        (-1) (-1) 0 le_rfl (by
          rcases hex with ⟨p, hp, hpL⟩
          have := interLen_nonneg r.startLine r.endLine p
          omega) hex
    unfold mapReviewToPatch
    rw [if_pos h1]
  · intro hnf hpos
    obtain ⟨pre, x, post, hsplit, hx, hpre, hloop⟩ :=
      findBestLoop_first_argmax r.startLine r.endLine ((s0, e0) :: rest)
        (-1) (-1) 0 le_rfl hpos hnf
    refine ⟨pre, x, post, hsplit, hx, hpre, ?_⟩
    have hxmem : x ∈ (s0, e0) :: rest := by
      rw [hsplit]
      exact List.mem_append_right _ (List.mem_cons_self _ _)
    have hx1 : 0 ≤ x.1 := (hnn x hxmem).1
    have hx2 : 0 ≤ x.2 := (hnn x hxmem).2
    unfold mapReviewToPatch
    have hfb : findBestPatchMapping ((s0, e0) :: rest) r.startLine
        r.endLine = (false, x.1, x.2) := hloop
    rw [hfb]
    have hg : (x.1 != -1 && x.2 != -1) = true := by
      simp only [Bool.and_eq_true, bne_iff_ne, ne_eq]
      omega
    simp [hg]
  · intro hzero
    have hloop := findBestLoop_zero r.startLine r.endLine
      ((s0, e0) :: rest) hzero
    unfold mapReviewToPatch
    have hfb : findBestPatchMapping ((s0, e0) :: rest) r.startLine
        r.endLine = (false, -1, -1) := hloop
    rw [hfb]
    simp

/-- C4 witness: a range fully inside the first hunk is returned
unchanged, via `mapReviewToPatch_spec` with all hypotheses discharged at
`patches = [(1, 5), (10, 20)]`, range `(2, 3)`. -/
theorem mapReviewToPatch_spec_witness :
    mapReviewToPatch [((1 : Int), (5 : Int)), (10, 20)] ⟨2, 3, "ok"⟩ =
      some ⟨2, 3, "ok"⟩ :=
  (mapReviewToPatch_spec [(1, 5), (10, 20)] ⟨2, 3, "ok"⟩ (by decide)
    (by decide) (by decide)).2.1 ⟨(1, 5), by decide, by decide⟩

/-! ## `packPatchesIntoInputs` (review.ts:472-532)

The packer walks the `(startLine, endLine, patch)` triples, stops once
`patchesToPack` hunks are packed, fetches each hunk's comment-chain text
(embedded as the function `chainFor`, the awaited result of
`getCommentChainForPatch`), counts tokens (embedded as the function
`tokenCount` over the abstract tokenizer) and appends delimited sections
to `ins.patches`.  The `context.payload.pull_request == null` early
return is the `pullRequestPresent` flag. -/

/-- The packing loop of `packPatchesIntoInputs`, carrying
`(remaining patches, tokens, patchesPacked, ins.patches)`. -/
def packLoop (tokenCount : String → Nat) (requestTokens : Nat)
    (chainFor : Int × Int × String → String) (patchesToPack : Nat) :
    List (Int × Int × String) → Nat → Nat → String → String × Nat
  | [], _, packed, acc => (acc, packed)
  | (startLine, endLine, patch) :: rest, tokens, packed, acc =>
    if packed ≥ patchesToPack then (acc, packed)
    else
      let commentChain := chainFor (startLine, endLine, patch)
      let commentChainTokens := tokenCount commentChain
      let tokens' :=
        if tokens + commentChainTokens > requestTokens then tokens
        else tokens + commentChainTokens
      let acc1 := acc ++ "\n" ++ patch ++ "\n"
      let acc2 :=
        if commentChain ≠ "" then
          acc1 ++ "\n---comment_chains---\n```\n" ++ commentChain ++ "\n```\n"
        else acc1
      let acc3 := acc2 ++ "\n---end_change_section---\n"
      packLoop tokenCount requestTokens chainFor patchesToPack rest
        tokens' (packed + 1) acc3

/-- Function `packPatchesIntoInputs` of review.ts, returning the assembled
`ins.patches` text together with the returned `patchesPacked` count. -/
def packPatchesIntoInputs (tokenCount : String → Nat) (requestTokens : Nat)
    (chainFor : Int × Int × String → String) (pullRequestPresent : Bool)
    (insPatches : String) (patches : List (Int × Int × String))
    (patchesToPack : Nat) (baseTokens : Nat) : String × Nat :=
  if !pullRequestPresent then (insPatches, 0)
  else
    packLoop tokenCount requestTokens chainFor patchesToPack patches
      baseTokens 0 insPatches

/-- C2: the code contradicts its own inline comment ("Skip comment chain
if it exceeds token limit") and the claim.  With a one-token budget
remaining (`requestTokens = 5`, `baseTokens = 0`) and a comment chain of
8 tokens, the chain exceeds the budget (first conjunct), yet the
assembled request body still contains the full `---comment_chains---`
section — only the token counter skips it. -/
theorem packPatchesIntoInputs_code_bug :
    ((0 + (fun s => s.length) "cccccccc" > 5) = true) ∧
      packPatchesIntoInputs (fun s => s.length) 5 (fun _ => "cccccccc") true
          "" [(1, 2, "p")] 1 0 =
        ("\np\n\n---comment_chains---\n```\ncccccccc\n```\n\n---end_change_section---\n",
          1) :=
  ⟨by decide, by decide⟩

/-! ## Review state machine (review-state.ts)

Timestamps produced by `new Date().toISOString()` are embedded as an
explicit `now : String` argument to every transition.  Optional fields
are `Option`-valued; spreading `options?.error` etc. over the record
writes the option's value (with `undefined`, i.e. `none`, when absent),
exactly as the source object literal does. -/

/-- Per-file status, the `FileStatus` union of review-state.ts. -/
inductive FileStatus where
  | pending
  | summarizing
  | summarized
  | reviewing
  | reviewed
  | failed
  | skipped
deriving Repr, DecidableEq

/-- Review phase union. -/
inductive Phase where
  | summarizing
  | reviewing
deriving Repr, DecidableEq

/-- Error taxonomy (closed set) used by review-state.ts and
retry-logic.ts. -/
inductive ErrorType where
  | rate_limit
  | timeout
  | network
  | api_error
  | token_limit
  | unknown
deriving Repr, DecidableEq

/-- Shape of `state.lastError` (its `type` field is named `etype` here
because `type` is reserved). -/
structure LastError where
  message : String
  timestamp : String
  etype : ErrorType
deriving Repr, DecidableEq

/-- One entry of `state.files`, the `FileReviewStatus` interface. -/
structure FileReviewStatus where
  filename : String
  status : FileStatus
  error : Option String
  updatedAt : String
  skipConfidence : Option Int
  skipReason : Option String
deriving Repr, DecidableEq

/-- Persisted review state, the `ReviewState` interface. -/
structure ReviewState where
  version : String
  startedAt : String
  updatedAt : String
  commitId : String
  totalFiles : Int
  completedFiles : Int
  failedFiles : Int
  skippedFiles : Int
  phase : Phase
  files : List FileReviewStatus
  lastError : Option LastError
deriving Repr, DecidableEq

/-- Constructor `createReviewState(commitId, files)`; the source takes
`Array<{filename}>`, embedded as the list of filenames. -/
def createReviewState (commitId : String) (files : List String)
    (now : String) : ReviewState where
  version := "1.0"
  startedAt := now
  updatedAt := now
  commitId := commitId
  totalFiles := files.length
  completedFiles := 0
  failedFiles := 0
  skippedFiles := 0
  phase := Phase.summarizing
  files := files.map (fun f => ⟨f, FileStatus.pending, none, now, none, none⟩)
  lastError := none

/-- Optional third argument of `updateFileStatus`. -/
structure UpdateOptions where
  error : Option String := none
  skipConfidence : Option Int := none
  skipReason : Option String := none
deriving Repr, DecidableEq

/-- Replacement of the first entry whose `filename` matches (the
`findIndex` + copy-and-replace step of `updateFileStatus`), also
returning the old status; `none` is the `fileIndex === -1` throw.  The
replaced entry spreads the old record and overwrites `status`,
`updatedAt`, `error`, `skipConfidence` and `skipReason` (the last three
with the supplied options, clearing them when absent). -/
def updateFileInList (filename : String) (status : FileStatus)
    (opts : UpdateOptions) (now : String) :
    List FileReviewStatus → Option (FileStatus × List FileReviewStatus)
  | [] => none
  | f :: fs =>
    if f.filename == filename then
      some (f.status,
        ⟨f.filename, status, opts.error, now, opts.skipConfidence,
          opts.skipReason⟩ :: fs)
    else
      match updateFileInList filename status opts now fs with
      | none => none
      | some (old, fs') => some (old, f :: fs')

/-- Transition `updateFileStatus(state, filename, status, options?)`;
counter deltas decrement the old status's membership and increment the
new one's, and each counter is clamped with `Math.max(0, ·)`. -/
def updateFileStatus (state : ReviewState) (filename : String)
    (status : FileStatus) (opts : UpdateOptions) (now : String) :
    Option ReviewState :=
  match updateFileInList filename status opts now state.files with
  | none => none
  | some (oldStatus, newFiles) =>
    let completedDelta : Int :=
      (if status = FileStatus.reviewed ∨ status = FileStatus.skipped
        then 1 else 0) -
      (if oldStatus = FileStatus.reviewed ∨ oldStatus = FileStatus.skipped
        then 1 else 0)
    let failedDelta : Int :=
      (if status = FileStatus.failed then 1 else 0) -
      (if oldStatus = FileStatus.failed then 1 else 0)
    let skippedDelta : Int :=
      (if status = FileStatus.skipped then 1 else 0) -
      (if oldStatus = FileStatus.skipped then 1 else 0)
    some { state with
      updatedAt := now
      files := newFiles
      completedFiles := max 0 (state.completedFiles + completedDelta)
      failedFiles := max 0 (state.failedFiles + failedDelta)
      skippedFiles := max 0 (state.skippedFiles + skippedDelta) }

/-- Transition `updatePhase(state, phase)`: sets `phase` and bumps
`updatedAt`, with no guard on the direction of the change. -/
def updatePhase (state : ReviewState) (phase : Phase) (now : String) :
    ReviewState :=
  { state with phase := phase, updatedAt := now }

/-- Transition `recordError(state, error, type)`. -/
def recordError (state : ReviewState) (error : String) (etype : ErrorType)
    (now : String) : ReviewState :=
  { state with updatedAt := now, lastError := some ⟨error, now, etype⟩ }

/-- Number (as a JavaScript number, `Int`) of files whose status
satisfies `p`. -/
def countWith (p : FileStatus → Bool) (files : List FileReviewStatus) : Int :=
  ((files.filter (fun f => p f.status)).length : Int)

/-- Membership in the `completedFiles` counter: `reviewed` or
`skipped`. -/
def isCompleted (st : FileStatus) : Bool :=
  st == FileStatus.reviewed || st == FileStatus.skipped

/-- Membership in the `failedFiles` counter. -/
def isFailed (st : FileStatus) : Bool :=
  st == FileStatus.failed

/-- Membership in the `skippedFiles` counter. -/
def isSkipped (st : FileStatus) : Bool :=
  st == FileStatus.skipped

/-- States reachable from `createReviewState` by `updateFileStatus`
steps that do not throw (their filename is present), `updatePhase` steps
and `recordError` steps. -/
inductive Reachable : ReviewState → Prop where
  | init (commitId : String) (files : List String) (now : String) :
      Reachable (createReviewState commitId files now)
  | update {s s' : ReviewState} (filename : String) (status : FileStatus)
      (opts : UpdateOptions) (now : String) (hs : Reachable s)
      (h : updateFileStatus s filename status opts now = some s') :
      Reachable s'
  | phaseStep {s : ReviewState} (p : Phase) (now : String)
      (hs : Reachable s) : Reachable (updatePhase s p now)
  | errStep {s : ReviewState} (e : String) (t : ErrorType) (now : String)
      (hs : Reachable s) : Reachable (recordError s e t now)

theorem updateFileInList_count (p : FileStatus → Bool) (filename : String)
    (status : FileStatus) (opts : UpdateOptions) (now : String) :
    ∀ (files : List FileReviewStatus) (old : FileStatus)
      (newFiles : List FileReviewStatus),
      updateFileInList filename status opts now files = some (old, newFiles) →
      countWith p newFiles = countWith p files +
        (if p status then 1 else 0) - (if p old then 1 else 0) := by
  intro files
  induction files with
  | nil => intro old newFiles h; simp [updateFileInList] at h
  | cons f fs ih =>
    intro old newFiles h
    by_cases hf : f.filename == filename
    · simp only [updateFileInList, hf, if_true, Option.some.injEq,
        Prod.mk.injEq] at h
      obtain ⟨hold, hnew⟩ := h
      subst hold
      subst hnew
      simp only [countWith, List.filter_cons]
      by_cases hps : p status <;> by_cases hpf : p f.status <;>
        simp [hps, hpf]
    · simp only [updateFileInList, hf, Bool.false_eq_true, if_false] at h
      rcases hrec : updateFileInList filename status opts now fs with
        _ | ⟨old', fs'⟩
      · rw [hrec] at h; exact absurd h (by simp)
      · rw [hrec] at h
        simp only [Option.some.injEq, Prod.mk.injEq] at h
        obtain ⟨hold, hnew⟩ := h
        subst hold
        subst hnew
        have := ih _ _ hrec
        simp only [countWith, List.filter_cons] at this ⊢
        by_cases hpf : p f.status <;> simp [hpf] <;> omega

theorem countWith_pending (p : FileStatus → Bool)
    (hp : p FileStatus.pending = false) (files : List String)
    (now : String) :
    countWith p (files.map
      (fun f => ⟨f, FileStatus.pending, none, now, none, none⟩)) = 0 := by
  induction files with
  | nil => simp [countWith]
  | cons f fs ih =>
    simp only [countWith, List.map_cons, List.filter_cons, hp,
      Bool.false_eq_true, if_false] at ih ⊢
    exact ih

theorem countWith_nonneg (p : FileStatus → Bool)
    (files : List FileReviewStatus) : 0 ≤ countWith p files := by
  simp [countWith]

/-- C3: in every state reachable from `createReviewState` by
`updateFileStatus` steps on present filenames (and `updatePhase` /
`recordError` steps), `completedFiles` equals the number of files whose
status is `reviewed` or `skipped`, `failedFiles` the number of `failed`
files, `skippedFiles` the number of `skipped` files, and none of the
three counters is negative. -/
theorem reviewState_counters_invariant (s : ReviewState)
    (h : Reachable s) :
    (s.completedFiles = countWith isCompleted s.files ∧
      s.failedFiles = countWith isFailed s.files ∧
      s.skippedFiles = countWith isSkipped s.files) ∧
    (0 ≤ s.completedFiles ∧ 0 ≤ s.failedFiles ∧ 0 ≤ s.skippedFiles) := by
  have main : s.completedFiles = countWith isCompleted s.files ∧
      s.failedFiles = countWith isFailed s.files ∧
      s.skippedFiles = countWith isSkipped s.files := by
    induction h with
    | init commitId files now =>
      refine ⟨(countWith_pending isCompleted (by decide) files now).symm,
        (countWith_pending isFailed (by decide) files now).symm,
        (countWith_pending isSkipped (by decide) files now).symm⟩
    | update filename status opts now hs hstep ih =>
      rename_i s₀ s'
      rcases hrec : updateFileInList filename status opts now s₀.files with
        _ | ⟨oldStatus, newFiles⟩
      · rw [updateFileStatus, hrec] at hstep
        exact absurd hstep (by simp)
      · rw [updateFileStatus, hrec] at hstep
        simp only [Option.some.injEq] at hstep
        obtain ⟨ihc, ihf, ihk⟩ := ih
        have hc := updateFileInList_count isCompleted filename status opts
          now s₀.files oldStatus newFiles hrec
        have hf := updateFileInList_count isFailed filename status opts
          now s₀.files oldStatus newFiles hrec
        have hk := updateFileInList_count isSkipped filename status opts
          now s₀.files oldStatus newFiles hrec
        have hdc : (if status = FileStatus.reviewed ∨
            status = FileStatus.skipped then (1 : Int) else 0) =
            (if isCompleted status then 1 else 0) := by
          cases status <;> simp [isCompleted]
        have hdc' : (if oldStatus = FileStatus.reviewed ∨
            oldStatus = FileStatus.skipped then (1 : Int) else 0) =
            (if isCompleted oldStatus then 1 else 0) := by
          cases oldStatus <;> simp [isCompleted]
        have hdf : (if status = FileStatus.failed then (1 : Int) else 0) =
            (if isFailed status then 1 else 0) := by
          cases status <;> simp [isFailed]
        have hdf' : (if oldStatus = FileStatus.failed then (1 : Int) else 0) =
            (if isFailed oldStatus then 1 else 0) := by
          cases oldStatus <;> simp [isFailed]
        have hdk : (if status = FileStatus.skipped then (1 : Int) else 0) =
            (if isSkipped status then 1 else 0) := by
          cases status <;> simp [isSkipped]
        have hdk' : (if oldStatus = FileStatus.skipped then (1 : Int) else 0) =
            (if isSkipped oldStatus then 1 else 0) := by
          cases oldStatus <;> simp [isSkipped]
        subst hstep
        refine ⟨?_, ?_, ?_⟩
        · show max 0 (s₀.completedFiles + _) = countWith isCompleted newFiles
          rw [hdc, hdc', ihc]
          have hnn := countWith_nonneg isCompleted newFiles
          omega
        · show max 0 (s₀.failedFiles + _) = countWith isFailed newFiles
          rw [hdf, hdf', ihf]
          have hnn := countWith_nonneg isFailed newFiles
          omega
        · show max 0 (s₀.skippedFiles + _) = countWith isSkipped newFiles
          rw [hdk, hdk', ihk]
          have hnn := countWith_nonneg isSkipped newFiles
          omega
    | phaseStep p now hs ih =>
      simpa [updatePhase] using ih
    | errStep e t now hs ih =>
      simpa [recordError] using ih
  refine ⟨main, ?_, ?_, ?_⟩
  · rw [main.1]; exact countWith_nonneg _ _
  · rw [main.2.1]; exact countWith_nonneg _ _
  · rw [main.2.2]; exact countWith_nonneg _ _

/-- C3 witness: the invariant at the concrete reachable state obtained by
creating a two-file state and marking one file `reviewed`, with the
reachability hypothesis discharged by explicit `Reachable` constructors. -/
theorem reviewState_counters_invariant_witness :
    ((updatePhase (createReviewState "c" ["a", "b"] "t0")
        Phase.reviewing "t1").completedFiles =
      countWith isCompleted (updatePhase (createReviewState "c" ["a", "b"]
        "t0") Phase.reviewing "t1").files) ∧
      0 ≤ (updatePhase (createReviewState "c" ["a", "b"] "t0")
        Phase.reviewing "t1").failedFiles :=
  ⟨(reviewState_counters_invariant _
      (Reachable.phaseStep Phase.reviewing "t1"
        (Reachable.init "c" ["a", "b"] "t0"))).1.1,
    (reviewState_counters_invariant _
      (Reachable.phaseStep Phase.reviewing "t1"
        (Reachable.init "c" ["a", "b"] "t0"))).2.2.1⟩

theorem updateFileInList_split (filename : String) (status : FileStatus)
    (opts : UpdateOptions) (now : String) :
    ∀ (files : List FileReviewStatus) (old : FileStatus)
      (newFiles : List FileReviewStatus),
      updateFileInList filename status opts now files = some (old, newFiles) →
      ∃ pre f post, files = pre ++ f :: post ∧
        (∀ g ∈ pre, g.filename ≠ filename) ∧ f.filename = filename ∧
        old = f.status ∧
        newFiles = pre ++
          (⟨f.filename, status, opts.error, now, opts.skipConfidence,
            opts.skipReason⟩ : FileReviewStatus) :: post := by
  intro files
  induction files with
  | nil => intro old newFiles h; simp [updateFileInList] at h
  | cons f fs ih =>
    intro old newFiles h
    by_cases hf : f.filename == filename
    · simp only [updateFileInList, hf, if_true, Option.some.injEq,
        Prod.mk.injEq] at h
      obtain ⟨hold, hnew⟩ := h
      exact ⟨[], f, fs, by simp, by simp, by simpa using hf, hold.symm,
        by simp [← hnew]⟩
    · simp only [updateFileInList, hf, Bool.false_eq_true, if_false] at h
      rcases hrec : updateFileInList filename status opts now fs with
        _ | ⟨old', fs'⟩
      · rw [hrec] at h; exact absurd h (by simp)
      · rw [hrec] at h
        simp only [Option.some.injEq, Prod.mk.injEq] at h
        obtain ⟨hold, hnew⟩ := h
        obtain ⟨pre, g, post, hsplit, hpre, hg, hgold, hnew'⟩ :=
          ih _ _ hrec
        refine ⟨f :: pre, g, post, by rw [hsplit]; rfl, ?_, hg,
          hold ▸ hgold, by rw [← hnew, hnew']; rfl⟩
        intro x hx
        rcases List.mem_cons.mp hx with rfl | hx'
        · simpa using hf
        · exact hpre x hx'

/-- C10: `updateFileStatus` on a present filename changes only the first
entry for that filename plus the counters and `updatedAt`: `version`,
`startedAt`, `commitId`, `totalFiles`, `phase`, `lastError`, the other
file records and the file order are unchanged, and on the targeted file
`status` becomes the new status, `updatedAt` becomes `now`, and `error`,
`skipConfidence` and `skipReason` are overwritten with the supplied
options (cleared to `none` when an option is not supplied). -/
theorem updateFileStatus_frame (s : ReviewState) (filename : String)
    (status : FileStatus) (opts : UpdateOptions) (now : String)
    (s' : ReviewState)
    (h : updateFileStatus s filename status opts now = some s') :
    s'.version = s.version ∧ s'.startedAt = s.startedAt ∧
    s'.commitId = s.commitId ∧ s'.totalFiles = s.totalFiles ∧
    s'.phase = s.phase ∧ s'.lastError = s.lastError ∧ s'.updatedAt = now ∧
    ∃ pre f post, s.files = pre ++ f :: post ∧
      (∀ g ∈ pre, g.filename ≠ filename) ∧ f.filename = filename ∧
      s'.files = pre ++
        (⟨f.filename, status, opts.error, now, opts.skipConfidence,
          opts.skipReason⟩ : FileReviewStatus) :: post := by
  rcases hrec : updateFileInList filename status opts now s.files with
    _ | ⟨oldStatus, newFiles⟩
  · rw [updateFileStatus, hrec] at h
    exact absurd h (by simp)
  · rw [updateFileStatus, hrec] at h
    simp only [Option.some.injEq] at h
    subst h
    obtain ⟨pre, f, post, hsplit, hpre, hf, _, hnew⟩ :=
      updateFileInList_split filename status opts now s.files _ _ hrec
    exact ⟨rfl, rfl, rfl, rfl, rfl, rfl, rfl,
      pre, f, post, hsplit, hpre, hf, hnew⟩

/-- C10 witness: `updateFileStatus_frame` applied to the concrete update
marking file `b` reviewed in a freshly created two-file state, hypothesis
discharged by evaluation. -/
theorem updateFileStatus_frame_witness :
    ({ version := "1.0", startedAt := "t0", updatedAt := "t1",
       commitId := "c", totalFiles := 2, completedFiles := 1,
       failedFiles := 0, skippedFiles := 0, phase := Phase.summarizing,
       files := [⟨"a", FileStatus.pending, none, "t0", none, none⟩,
         ⟨"b", FileStatus.reviewed, none, "t1", none, none⟩],
       lastError := none } : ReviewState).updatedAt = "t1" :=
  (updateFileStatus_frame (createReviewState "c" ["a", "b"] "t0") "b"
    FileStatus.reviewed ⟨none, none, none⟩ "t1" _ (by decide)).2.2.2.2.2.2.1

/-- C9: as stated the claim is false — `updatePhase` applies no guard,
so from a state in the `reviewing` phase a call with `summarizing` moves
the phase backward. -/
theorem updatePhase_counterexample :
    (updatePhase (createReviewState "c" [] "t0") Phase.reviewing
      "t1").phase = Phase.reviewing ∧
    (updatePhase (updatePhase (createReviewState "c" [] "t0")
        Phase.reviewing "t1") Phase.summarizing "t2").phase =
      Phase.summarizing := ⟨rfl, rfl⟩

/-- C9 (amended): `updatePhase` sets the phase to exactly its argument
(touching only `phase` and `updatedAt`); hence a call with argument
`reviewing` never yields `summarizing`, but the forward-only discipline
is a caller convention, not enforced by the function. -/
theorem updatePhase_spec (s : ReviewState) (p : Phase) (now : String) :
    (updatePhase s p now).phase = p ∧
    (updatePhase s Phase.reviewing now).phase ≠ Phase.summarizing ∧
    (updatePhase s p now).files = s.files ∧
    (updatePhase s p now).commitId = s.commitId ∧
    (updatePhase s p now).updatedAt = now :=
  ⟨rfl, by simp [updatePhase], rfl, rfl, rfl⟩

/-- C9 witness: `updatePhase_spec` at a concrete state and phase. -/
theorem updatePhase_spec_witness :
    (updatePhase (createReviewState "c" [] "t0") Phase.reviewing
      "t1").phase = Phase.reviewing :=
  (updatePhase_spec (createReviewState "c" [] "t0") Phase.reviewing "t1").1

/-! ## `isSameReview` (review-state.ts) -/

/-- Filenames of a state's files, in list order. -/
def filenames (s : ReviewState) : List String :=
  s.files.map (fun f => f.filename)

/-- Predicate `isSameReview(state1, state2)`.  The source returns false
when either state is absent, then compares `commitId`, then the `files`
array lengths, then iterates the `Set` of `state1` filenames checking
membership in the `Set` of `state2` filenames; iterating the set of a
list and iterating the list itself decide the same universally
quantified membership test, so the last step is `all` over the list. -/
def isSameReview : Option ReviewState → Option ReviewState → Bool
  | some a, some b =>
    if a.commitId ≠ b.commitId then false
    else if a.files.length ≠ b.files.length then false
    else (filenames a).all (fun n => (filenames b).contains n)
  | _, _ => false

/-- Concrete state whose files list holds the same filename twice. -/
def stateDupA : ReviewState where
  version := "1.0"
  startedAt := "t"
  updatedAt := "t"
  commitId := "c"
  totalFiles := 2
  completedFiles := 0
  failedFiles := 0
  skippedFiles := 0
  phase := Phase.summarizing
  files := [⟨"a", FileStatus.pending, none, "t", none, none⟩,
    ⟨"a", FileStatus.pending, none, "t", none, none⟩]
  lastError := none

/-- Concrete state with filenames `a` and `b`. -/
def stateAB : ReviewState where
  version := "1.0"
  startedAt := "t"
  updatedAt := "t"
  commitId := "c"
  totalFiles := 2
  completedFiles := 0
  failedFiles := 0
  skippedFiles := 0
  phase := Phase.summarizing
  files := [⟨"a", FileStatus.pending, none, "t", none, none⟩,
    ⟨"b", FileStatus.pending, none, "t", none, none⟩]
  lastError := none

/-- C7: as stated the claim is false — with duplicate filenames the list
lengths agree and every filename of the first state occurs in the second,
so `isSameReview` returns true even though the filename sets differ
(`{a}` versus `{a, b}`): the containment is only checked one way. -/
theorem isSameReview_counterexample :
    isSameReview (some stateDupA) (some stateAB) = true ∧
      "b" ∈ filenames stateAB ∧ ¬ "b" ∈ filenames stateDupA :=
  ⟨by decide, by decide, by decide⟩

/-- C7 (amended): `isSameReview` returns true iff both states are
present, their `commitId` values are equal, their files lists have equal
length, and every filename of the first list occurs in the second; in
particular `isSameReview(s, s)` is true for every state, and it is false
whenever either side is absent. -/
theorem isSameReview_spec :
    (∀ x : Option ReviewState,
      isSameReview none x = false ∧ isSameReview x none = false) ∧
    (∀ a b : ReviewState, isSameReview (some a) (some b) = true ↔
      (a.commitId = b.commitId ∧ a.files.length = b.files.length ∧
        ∀ n ∈ filenames a, n ∈ filenames b)) ∧
    (∀ s : ReviewState, isSameReview (some s) (some s) = true) := by
  have hmain : ∀ a b : ReviewState, isSameReview (some a) (some b) = true ↔
      (a.commitId = b.commitId ∧ a.files.length = b.files.length ∧
        ∀ n ∈ filenames a, n ∈ filenames b) := by
    intro a b
    by_cases h1 : a.commitId = b.commitId
    · by_cases h2 : a.files.length = b.files.length
      · simp [isSameReview, h1, h2, List.all_eq_true]
      · simp [isSameReview, h1, h2]
    · simp [isSameReview, h1]
  refine ⟨?_, hmain, ?_⟩
  · intro x
    constructor
    · cases x <;> rfl
    · cases x <;> rfl
  · intro s
    exact (hmain s s).mpr ⟨rfl, rfl, fun n hn => hn⟩

/-- C7 witness: reflexivity of `isSameReview` at a concrete state, via
`isSameReview_spec`. -/
theorem isSameReview_spec_witness :
    isSameReview (some stateAB) (some stateAB) = true :=
  isSameReview_spec.2.2 stateAB

/-! ## `deserializeState` (review-state.ts)

`JSON.parse` output is embedded as a `JsValue` tree; a parse exception is
the `none` input.  Property access on a non-object yields `undefined`
(embedded `none`); on `null` it throws inside the `try`, which the
`catch` turns into the same `null` result, so `getField` uniformly
returns `none` there.  JavaScript truthiness over parsed JSON values:
`undefined`, `null`, `false`, `0` and `""` are falsy.  Within the `Int`
embedding of JSON numbers, fractional values are not represented; no
validated field is compared numerically, so this loses nothing the
function inspects. -/

/-- Parsed JSON values. -/
inductive JsValue where
  | jnull
  | jbool (b : Bool)
  | jnum (n : Int)
  | jstr (s : String)
  | jarr (elems : List JsValue)
  | jobj (fields : List (String × JsValue))

/-- First-match key lookup in an object's field list (`JSON.parse`
output has unique keys). -/
def lookupField : List (String × JsValue) → String → Option JsValue
  | [], _ => none
  | (k, v) :: fs, key => if k == key then some v else lookupField fs key

/-- Property access `value[key]`, `none` when absent or not an object. -/
def getField : JsValue → String → Option JsValue
  | JsValue.jobj fields, key => lookupField fields key
  | _, _ => none

/-- JavaScript truthiness of a possibly-absent parsed value. -/
def truthy : Option JsValue → Bool
  | none => false
  | some JsValue.jnull => false
  | some (JsValue.jbool b) => b
  | some (JsValue.jnum n) => n != 0
  | some (JsValue.jstr s) => s != ""
  | some (JsValue.jarr _) => true
  | some (JsValue.jobj _) => true

/-- Test `Array.isArray` of a possibly-absent parsed value. -/
def isArrayField : Option JsValue → Bool
  | some (JsValue.jarr _) => true
  | _ => false

/-- Function `deserializeState(json)` after `JSON.parse`: validate that
`version`, `startedAt` and `commitId` are truthy and `files` is an
array, then that `version` is strictly the string `"1.0"`; otherwise
the `null` sentinel.  The whole body is inside `try/catch`, so the
function never throws: every input maps to `none` or the parsed value. -/
def deserializeState (parsed : Option JsValue) : Option JsValue :=
  match parsed with
  | none => none
  | some state =>
    if !truthy (getField state "version") ||
        !truthy (getField state "startedAt") ||
        !truthy (getField state "commitId") ||
        !isArrayField (getField state "files") then none
    else
      match getField state "version" with
      | some (JsValue.jstr v) => if v == "1.0" then some state else none
      | _ => none

/-- Whether the `version` field is exactly the string `"1.0"`. -/
def versionIsExactly (v : JsValue) : Bool :=
  match getField v "version" with
  | some (JsValue.jstr s) => s == "1.0"
  | _ => false

/-- Rejection condition transcribed from the amended claim, as one flat
disjunction: parse failure, or a falsy (in particular missing)
`version`, `startedAt` or `commitId`, or `files` missing or not an
array, or `version` not exactly `"1.0"`. -/
def rejectsSpec (parsed : Option JsValue) : Bool :=
  match parsed with
  | none => true
  | some v =>
    !truthy (getField v "version") || !truthy (getField v "startedAt") ||
    !truthy (getField v "commitId") || !isArrayField (getField v "files") ||
    !versionIsExactly v

/-- Concrete parsed object with all four fields present and `version`
exactly `"1.0"`, but an empty (falsy) `startedAt`. -/
def emptyStartedAtState : JsValue :=
  JsValue.jobj [("version", JsValue.jstr "1.0"),
    ("startedAt", JsValue.jstr ""), ("commitId", JsValue.jstr "c"),
    ("files", JsValue.jarr [])]

/-- C6: as stated the claim is false — on a parsed object that has all
of `version`, `startedAt`, `commitId` and a `files` array present with
`version` exactly `"1.0"`, the claim requires the parsed state back, but
the code's truthiness check rejects the empty-string `startedAt` and
returns the sentinel. -/
theorem deserializeState_counterexample :
    deserializeState (some emptyStartedAtState) = none ∧
      getField emptyStartedAtState "version" = some (JsValue.jstr "1.0") ∧
      getField emptyStartedAtState "startedAt" = some (JsValue.jstr "") ∧
      getField emptyStartedAtState "commitId" = some (JsValue.jstr "c") ∧
      isArrayField (getField emptyStartedAtState "files") = true :=
  ⟨rfl, rfl, rfl, rfl, rfl⟩

/-- C6 (amended): `deserializeState` is total (never throws) and returns
the sentinel `none` exactly when the input is not valid JSON, or any of
`version`, `startedAt`, `commitId` is missing or otherwise falsy, or
`files` is missing or not an array, or `version` is not exactly the
string `"1.0"`; otherwise it returns the parsed state unchanged. -/
theorem deserialize_version_match (v w : JsValue) :
    (match getField v "version" with
      | some (JsValue.jstr s) => if s == "1.0" then some w else none
      | _ => none) = if versionIsExactly v then some w else none := by
  unfold versionIsExactly
  rcases getField v "version" with _ | u
  · rfl
  · cases u <;> simp

theorem deserializeState_spec (parsed : Option JsValue) :
    deserializeState parsed = if rejectsSpec parsed then none else parsed := by
  cases parsed with
  | none => rfl
  | some v =>
    simp only [deserializeState, rejectsSpec, deserialize_version_match]
    by_cases h1 : truthy (getField v "version") <;>
      by_cases h2 : truthy (getField v "startedAt") <;>
      by_cases h3 : truthy (getField v "commitId") <;>
      by_cases h4 : isArrayField (getField v "files") <;>
      by_cases h5 : versionIsExactly v <;>
      simp [h1, h2, h3, h4, h5]

/-- C6 witness: `deserializeState_spec` evaluated at the concrete
rejected input. -/
theorem deserializeState_spec_witness :
    deserializeState (some emptyStartedAtState) = none :=
  (deserializeState_spec (some emptyStartedAtState)).trans rfl

/-! ## Retry policy (retry-logic.ts) -/

/-- Per-error-type retry strategy record. -/
structure RetryStrategy where
  maxAttempts : Int
  baseDelay : Int
  shouldRetry : Bool
deriving Repr, DecidableEq

/-- Retry configuration: a global `maxAttempts` plus the optional
per-error-type override map (itself with optional entries). -/
structure RetryConfig where
  maxAttempts : Int
  perErrorTypeMaxAttempts : Option (ErrorType → Option Int)

/-- Fixed strategy table `getRetryStrategy` of retry-logic.ts. -/
def getRetryStrategy : ErrorType → RetryStrategy
  | ErrorType.rate_limit => ⟨5, 5000, true⟩
  | ErrorType.timeout => ⟨3, 2000, true⟩
  | ErrorType.network => ⟨3, 2000, true⟩
  | ErrorType.token_limit => ⟨0, 0, false⟩
  | ErrorType.api_error => ⟨2, 1000, true⟩
  | ErrorType.unknown => ⟨2, 1000, true⟩

/-- Decision `shouldRetry(currentAttempt, errorType, config)`: false when
the type's strategy is non-retryable, else compare the attempt against
`config.perErrorTypeMaxAttempts?.[errorType] ?? config.maxAttempts`. -/
def shouldRetry (currentAttempt : Int) (errorType : ErrorType)
    (config : RetryConfig) : Bool :=
  let strategy := getRetryStrategy errorType
  if !strategy.shouldRetry then false
  else
    let maxAttempts :=
      (config.perErrorTypeMaxAttempts.bind
        (fun m => m errorType)).getD config.maxAttempts
    decide (currentAttempt < maxAttempts)

/-- C8: `shouldRetry` returns false for `token_limit` at every attempt
number and configuration; for every other error type it returns true iff
the attempt number is strictly below the per-error-type maximum from the
configuration when present, and otherwise the configuration's global
`maxAttempts`. -/
theorem shouldRetry_spec :
    (∀ (a : Int) (cfg : RetryConfig),
      shouldRetry a ErrorType.token_limit cfg = false) ∧
    (∀ (a : Int) (t : ErrorType) (cfg : RetryConfig),
      t ≠ ErrorType.token_limit →
      (shouldRetry a t cfg = true ↔
        a < (cfg.perErrorTypeMaxAttempts.bind
          (fun m => m t)).getD cfg.maxAttempts)) := by
  constructor
  · intro a cfg
    rfl
  · intro a t cfg ht
    cases t
    case token_limit => exact absurd rfl ht
    all_goals simp [shouldRetry, getRetryStrategy]

/-- C8 witness: `shouldRetry_spec` at attempt 0, `rate_limit`, and a
configuration with global maximum 3 and no override map. -/
theorem shouldRetry_spec_witness :
    shouldRetry 0 ErrorType.rate_limit ⟨3, none⟩ = true :=
  (shouldRetry_spec.2 0 ErrorType.rate_limit ⟨3, none⟩
    (by decide)).mpr (by decide)

end AiPrReviewer
